import Mathlib

/-!
Shallow embedding of the `ctx_stack` module (`src/ctx_stack/__init__.py`).

A Python `dict` with string keys is modelled as an association list
`Ctx V := List (String × V)` with unique keys (inputs coming from Python
dicts never repeat a key); `dict` lookup, item assignment, `pop`, and the
`|` (right-biased) union operator are modelled by `findKey`, `setKey`,
`eraseKey` and `merge`, preserving Python's insertion-order semantics.
Values are opaque (`V`); `copy.deepcopy` on immutable Lean values is the
identity.
-/

namespace CtxStack

/-- A context snapshot: a Python dict with string keys, as an association
list in insertion order. -/
abbrev Ctx (V : Type) : Type := List (String × V)

/-- Python `d[k]` / `k in d` (as an `Option`): value of the first entry
with key `k`. -/
def findKey {V : Type} (k : String) : Ctx V → Option V
  | [] => none
  | p :: rest => if p.1 = k then some p.2 else findKey k rest

/-- Python `d.pop(k)`'s effect on the dict: remove the entry with key `k`
(all occurrences; dicts have unique keys). -/
def eraseKey {V : Type} (k : String) : Ctx V → Ctx V
  | [] => []
  | p :: rest => if p.1 = k then eraseKey k rest else p :: eraseKey k rest

/-- Python `d[k] = v`: update the entry in place if `k` is present,
otherwise append `(k, v)` at the end. -/
def setKey {V : Type} (c : Ctx V) (k : String) (v : V) : Ctx V :=
  if (findKey k c).isSome then c.map (fun p => if p.1 = k then (k, v) else p)
  else c ++ [(k, v)]

/-- Python `old | new` on dicts: keys of `old` first (values overridden by
`new` where present), then the keys of `new` not in `old`, in order. -/
def merge {V : Type} (old new : Ctx V) : Ctx V :=
  old.map (fun p => (p.1, (findKey p.1 new).getD p.2)) ++
    new.filter (fun p => (findKey p.1 old).isNone)

/-- `ContextStack` state: the `_attributes` deque, head = base (index 0),
last = current snapshot (index -1). -/
structure ContextStack (V : Type) where
  attrs : List (Ctx V)
  deriving DecidableEq

/-- `ContextStack.__init__`: `self._attributes = deque([{}])`. -/
def initStack (V : Type) : ContextStack V := ⟨[[]]⟩

/-- The current snapshot `self._attributes[-1]` (defaulting to `{}` on the
unreachable empty sequence). -/
def currentSnapshot {V : Type} (s : ContextStack V) : Ctx V :=
  s.attrs.getLastD []

/-- `ContextStack.push`: append `old | deepcopy(new_context_vars)`. -/
def ContextStack.push {V : Type} (s : ContextStack V) (newContextVars : Ctx V) :
    ContextStack V :=
  ⟨s.attrs ++ [merge (s.attrs.getLastD []) newContextVars]⟩

/-- Result of `ContextStack.pop`: the stack afterwards, the returned
snapshot (`none` models the unreachable IndexError on an empty deque),
and whether the warning-level diagnostic was emitted. -/
structure PopResult (V : Type) where
  stack : ContextStack V
  ret : Option (Ctx V)
  warned : Bool
  deriving DecidableEq

/-- `ContextStack.pop`: refuse to shrink below length 1 (warn and return
`self._attributes[0]`); otherwise remove and return the last snapshot. -/
def ContextStack.pop {V : Type} (s : ContextStack V) : PopResult V :=
  if s.attrs.length ≤ 1 then ⟨s, s.attrs.head?, true⟩
  else ⟨⟨s.attrs.dropLast⟩, s.attrs.getLast?, false⟩

/-- `ContextStack.dumps`: `{} | self._attributes[-1] | kwargs`. -/
def ContextStack.dumps {V : Type} (s : ContextStack V) (kwargs : Ctx V) : Ctx V :=
  merge (merge [] (s.attrs.getLastD [])) kwargs

/-- `ContextStack.reset`: `clear()` then append `{}`. -/
def ContextStack.reset {V : Type} (_s : ContextStack V) : ContextStack V :=
  ⟨[[]]⟩

/-- `ContextStack.save`: `copy.deepcopy(list(self._attributes))` — an
independent copy of the sequence (deepcopy is the identity on values). -/
def ContextStack.save {V : Type} (s : ContextStack V) : List (Ctx V) :=
  s.attrs

/-- `ContextStack.restore`: `None`/empty falls back to `reset`; otherwise
replace the sequence with a deep copy of `saved_context`, appending a base
snapshot if that copy were empty (dead code, modelled faithfully). -/
def ContextStack.restore {V : Type} (s : ContextStack V)
    (savedContext : Option (List (Ctx V))) : ContextStack V :=
  match savedContext with
  | none => s.reset
  | some l =>
    if l.isEmpty then s.reset
    else if l.isEmpty then ⟨l ++ [[]]⟩ else ⟨l⟩

/-- The tuple of reserved `logging` record attribute names, in source
order. -/
def reservedKeys : List String :=
  ["args", "asctime", "created", "exc_info", "exc_text", "filename",
   "funcName", "levelname", "levelno", "lineno", "message", "module",
   "msecs", "msg", "name", "pathname", "process", "processName",
   "relativeCreated", "stack_info", "thread", "threadName"]

/-- One iteration of the loop in `_replace_reserved_extra_kwargs`:
`if key in kwargs: kwargs["ctx_" + key] = kwargs.pop(key)`. -/
def replaceReservedStep {V : Type} (kwargs : Ctx V) (key : String) : Ctx V :=
  match findKey key kwargs with
  | none => kwargs
  | some v => setKey (eraseKey key kwargs) ("ctx_" ++ key) v

/-- `_replace_reserved_extra_kwargs`: fold the loop over `reservedKeys`. -/
def replaceReservedExtraKwargs {V : Type} (kwargs : Ctx V) : Ctx V :=
  reservedKeys.foldl replaceReservedStep kwargs

/-- Entry half of the `update` context manager:
`kwargs = _replace_reserved_extra_kwargs(kwargs); _context_stack.push(**kwargs)`. -/
def updateEnter {V : Type} (s : ContextStack V) (kwargs : Ctx V) : ContextStack V :=
  s.push (replaceReservedExtraKwargs kwargs)

/-- The `update` context manager run to completion around a `body`: remap
reserved keys, push, yield `dumps()` to the body (which may read or write
the stack and finish normally, `ok a`, or raise, `error e`), and pop in
the `finally` block on every exit path before the outcome propagates. -/
def update {V E A : Type} (s : ContextStack V) (kwargs : Ctx V)
    (body : Ctx V → ContextStack V → Except E A × ContextStack V) :
    Except E A × ContextStack V :=
  let s1 := updateEnter s kwargs
  let r := body (s1.dumps []) s1
  (r.1, r.2.pop.stack)

/-- Module-level `dumps`: remap reserved keys in `kwargs`, then
`_context_stack.dumps(**kwargs)`. -/
def dumps {V : Type} (s : ContextStack V) (kwargs : Ctx V) : Ctx V :=
  s.dumps (replaceReservedExtraKwargs kwargs)

/-- Exiting `n` nested `update` scopes: `n` successive pops. -/
def popStackN {V : Type} : Nat → ContextStack V → ContextStack V
  | 0, s => s
  | n + 1, s => popStackN n s.pop.stack

/-- One public mutating-or-reading operation of the stack, for stating
invariants over every reachable state. -/
inductive Op (V : Type) where
  | push (d : Ctx V)
  | pop
  | dumps (kwargs : Ctx V)
  | reset
  | save
  | restore (saved : Option (List (Ctx V)))

/-- Effect of one public operation on the stack state (`dumps` and `save`
do not mutate it). -/
def applyOp {V : Type} (s : ContextStack V) : Op V → ContextStack V
  | .push d => s.push d
  | .pop => s.pop.stack
  | .dumps _ => s
  | .reset => s.reset
  | .save => s
  | .restore saved => s.restore saved

/-- Effect of a sequence of public operations, oldest first. -/
def applyOps {V : Type} (s : ContextStack V) (ops : List (Op V)) : ContextStack V :=
  ops.foldl applyOp s

/-! Basic lemmas about dict lookup and the right-biased union. -/

theorem merge_nil_left {V : Type} (c : Ctx V) : merge [] c = c := by
  simp only [merge, List.map_nil, List.nil_append]
  refine List.filter_eq_self.mpr ?_
  intro a _
  rfl

theorem merge_nil_right {V : Type} (c : Ctx V) : merge c [] = c := by
  simp only [merge, List.filter_nil, List.append_nil]
  induction c with
  | nil => rfl
  | cons p rest ih => simp [findKey, ih]

theorem findKey_append {V : Type} (k : String) (a b : Ctx V) :
    findKey k (a ++ b) = (findKey k a).or (findKey k b) := by
  induction a with
  | nil => simp [findKey, Option.or]
  | cons p rest ih =>
    by_cases h : p.1 = k <;> simp [findKey, h, ih, Option.or]

theorem findKey_map_merge {V : Type} (k : String) (a b : Ctx V) :
    findKey k (a.map (fun p => (p.1, (findKey p.1 b).getD p.2))) =
      (findKey k a).map (fun v => (findKey k b).getD v) := by
  induction a with
  | nil => simp [findKey]
  | cons p rest ih =>
    by_cases h : p.1 = k <;> simp [findKey, h, ih]

theorem findKey_filter_merge {V : Type} (k : String) (a b : Ctx V) :
    findKey k (b.filter (fun q => (findKey q.1 a).isNone)) =
      if (findKey k a).isNone = true then findKey k b else none := by
  induction b with
  | nil => cases h : (findKey k a).isNone <;> simp [findKey, h]
  | cons q rest ih =>
    by_cases hq : q.1 = k
    · cases hp : (findKey q.1 a).isNone <;> rw [hq] at hp <;>
        simp [List.filter_cons, findKey, hq, hp, ih]
    · cases hp : (findKey q.1 a).isNone <;>
        simp [List.filter_cons, findKey, hq, hp, ih]

/-- The merged dict is the right-biased union, extensionally: lookup finds
the second dict's value where present, the first dict's otherwise. -/
theorem findKey_merge {V : Type} (k : String) (a b : Ctx V) :
    findKey k (merge a b) = (findKey k b).or (findKey k a) := by
  unfold merge
  rw [findKey_append, findKey_map_merge, findKey_filter_merge]
  cases ha : findKey k a <;> cases hb : findKey k b <;>
    simp [Option.or, ha, hb]

theorem currentSnapshot_push {V : Type} (s : ContextStack V) (d : Ctx V) :
    currentSnapshot (s.push d) = merge (currentSnapshot s) d := by
  simp [currentSnapshot, ContextStack.push, List.getLastD_concat]

theorem dumps_nil {V : Type} (s : ContextStack V) :
    s.dumps [] = currentSnapshot s := by
  simp [ContextStack.dumps, currentSnapshot, merge_nil_left, merge_nil_right]

theorem push_attrs_ne {V : Type} (s : ContextStack V) (d : Ctx V) :
    (s.push d).attrs ≠ [] := by
  simp [ContextStack.push]

theorem pop_push {V : Type} (s : ContextStack V) (d : Ctx V)
    (h : s.attrs ≠ []) : (s.push d).pop.stack = s := by
  obtain ⟨l⟩ := s
  have hlen : ¬ (l ++ [merge (l.getLastD []) d]).length ≤ 1 := by
    rcases l with _ | ⟨x, xs⟩
    · exact absurd rfl h
    · simp
  simp only [ContextStack.push, ContextStack.pop]
  rw [if_neg hlen]
  simp [List.dropLast_concat]

/-! Lemmas about `setKey`, `eraseKey` and the reserved-key remapping. -/

theorem findKey_setKey_map {V : Type} (k : String) (v : V) (c : Ctx V) :
    findKey k (c.map (fun p => if p.1 = k then (k, v) else p)) =
      (findKey k c).map (fun _ => v) := by
  induction c with
  | nil => rfl
  | cons p rest ih =>
    by_cases h : p.1 = k <;> simp [findKey, h, ih]

theorem findKey_setKey_self {V : Type} (k : String) (v : V) (c : Ctx V) :
    findKey k (setKey c k v) = some v := by
  unfold setKey
  by_cases h : (findKey k c).isSome
  · rw [if_pos h, findKey_setKey_map]
    obtain ⟨w, hw⟩ := Option.isSome_iff_exists.mp h
    simp [hw]
  · rw [if_neg h, findKey_append]
    simp only [Option.not_isSome_iff_eq_none] at h
    simp [h, findKey, Option.or]

theorem findKey_setKey_map_ne {V : Type} (k k' : String) (v : V) (c : Ctx V)
    (h : k' ≠ k) :
    findKey k' (c.map (fun p => if p.1 = k then (k, v) else p)) =
      findKey k' c := by
  induction c with
  | nil => rfl
  | cons p rest ih =>
    by_cases hp : p.1 = k
    · have hkk : k ≠ k' := fun hh => h hh.symm
      simp [findKey, hp, hkk, ih]
    · by_cases hp' : p.1 = k' <;> simp [findKey, hp, hp', h, ih]

theorem findKey_setKey_ne {V : Type} (k k' : String) (v : V) (c : Ctx V)
    (h : k' ≠ k) : findKey k' (setKey c k v) = findKey k' c := by
  unfold setKey
  by_cases hs : (findKey k c).isSome
  · rw [if_pos hs, findKey_setKey_map_ne _ _ _ _ h]
  · rw [if_neg hs, findKey_append]
    have hkk : k ≠ k' := fun hh => h hh.symm
    cases hfc : findKey k' c <;> simp [findKey, hkk, Option.or, hfc]

theorem findKey_eraseKey_self {V : Type} (k : String) (c : Ctx V) :
    findKey k (eraseKey k c) = none := by
  induction c with
  | nil => rfl
  | cons p rest ih =>
    by_cases h : p.1 = k <;> simp [eraseKey, findKey, h, ih]

theorem findKey_eraseKey_ne {V : Type} (k k' : String) (c : Ctx V)
    (h : k' ≠ k) : findKey k' (eraseKey k c) = findKey k' c := by
  induction c with
  | nil => rfl
  | cons p rest ih =>
    by_cases hp : p.1 = k
    · have hkk : k ≠ k' := fun hh => h hh.symm
      simp [eraseKey, findKey, hp, hkk, ih]
    · by_cases hp' : p.1 = k' <;> simp [eraseKey, findKey, hp, hp', h, ih]

/-- A loop iteration for reserved key `k` does not touch any key other
than `k` and `ctx_` ++ `k`. -/
theorem findKey_replaceStep_other {V : Type} (c : Ctx V) (k k' : String)
    (h1 : k' ≠ k) (h2 : k' ≠ "ctx_" ++ k) :
    findKey k' (replaceReservedStep c k) = findKey k' c := by
  unfold replaceReservedStep
  cases hv : findKey k c with
  | none => rfl
  | some v => rw [findKey_setKey_ne _ _ _ _ h2, findKey_eraseKey_ne _ _ _ h1]

/-- Folding the loop over keys none of which is `k'` (nor has `k'` as its
prefixed form) leaves the `k'` entry alone. -/
theorem findKey_foldl_replaceStep_other {V : Type} :
    ∀ (l : List String) (c : Ctx V) (k' : String),
      (∀ r ∈ l, k' ≠ r ∧ k' ≠ "ctx_" ++ r) →
      findKey k' (l.foldl replaceReservedStep c) = findKey k' c := by
  intro l
  induction l with
  | nil => intro c k' _; rfl
  | cons r rest ih =>
    intro c k' h
    have hr := h r (List.mem_cons_self r rest)
    rw [List.foldl_cons, ih _ _ (fun q hq => h q (List.mem_cons_of_mem _ hq)),
      findKey_replaceStep_other _ _ _ hr.1 hr.2]

/-- Core lemma for the remapping: folding the loop over a duplicate-free
key list `l` whose elements are never `ctx_`-prefixed forms of one
another removes every key `k ∈ l` present in `c` and installs its value
under `ctx_` ++ `k`. -/
theorem findKey_foldl_replace_mem {V : Type} :
    ∀ (l : List String) (c : Ctx V) (k : String) (v : V),
      k ∈ l →
      (∀ r ∈ l, ∀ r' ∈ l, ("ctx_" ++ r) ≠ r') →
      (∀ r ∈ l, ∀ r' ∈ l, r ≠ r' → ("ctx_" ++ r) ≠ ("ctx_" ++ r')) →
      l.Nodup →
      findKey k c = some v →
      findKey k (l.foldl replaceReservedStep c) = none ∧
        findKey ("ctx_" ++ k) (l.foldl replaceReservedStep c) = some v := by
  intro l
  induction l with
  | nil => intro c k v hk; exact absurd hk (List.not_mem_nil k)
  | cons r rest ih =>
    intro c k v hk hctx hinj hnd hv
    have hndr := List.nodup_cons.mp hnd
    by_cases hkr : k = r
    · subst hkr
      have hkc : k ≠ "ctx_" ++ k := fun hh =>
        hctx k (List.mem_cons_self _ _) k (List.mem_cons_self _ _) hh.symm
      have hstep : replaceReservedStep c k =
          setKey (eraseKey k c) ("ctx_" ++ k) v := by
        unfold replaceReservedStep
        rw [hv]
      rw [List.foldl_cons, hstep]
      constructor
      · rw [findKey_foldl_replaceStep_other rest _ k ?_]
        · rw [findKey_setKey_ne _ _ _ _ hkc, findKey_eraseKey_self]
        · intro q hq
          refine ⟨fun hh => hndr.1 (hh ▸ hq), fun hh => ?_⟩
          exact hctx q (List.mem_cons_of_mem _ hq) k (List.mem_cons_self _ _)
            hh.symm
      · rw [findKey_foldl_replaceStep_other rest _ ("ctx_" ++ k) ?_]
        · exact findKey_setKey_self _ _ _
        · intro q hq
          refine ⟨hctx k (List.mem_cons_self _ _) q (List.mem_cons_of_mem _ hq),
            fun hh => ?_⟩
          exact hinj k (List.mem_cons_self _ _) q (List.mem_cons_of_mem _ hq)
            (fun he => hndr.1 (he ▸ hq)) hh
    · have hkrest : k ∈ rest := (List.mem_cons.mp hk).resolve_left hkr
      have hv' : findKey k (replaceReservedStep c r) = some v := by
        rw [findKey_replaceStep_other _ _ _ hkr (fun hh => hctx r
          (List.mem_cons_self _ _) k (List.mem_cons.mpr (Or.inr hkrest))
          hh.symm), hv]
      rw [List.foldl_cons]
      exact ih _ k v hkrest
        (fun q hq q' hq' => hctx q (List.mem_cons_of_mem _ hq) q'
          (List.mem_cons_of_mem _ hq'))
        (fun q hq q' hq' => hinj q (List.mem_cons_of_mem _ hq) q'
          (List.mem_cons_of_mem _ hq'))
        hndr.2 hv'

/-! Lemmas about nested scope entry and exit. -/

/-- A dict containing no reserved key passes through the remapping
unchanged. -/
theorem foldl_replaceStep_id {V : Type} :
    ∀ (l : List String) (c : Ctx V),
      (∀ k ∈ l, findKey k c = none) →
      l.foldl replaceReservedStep c = c := by
  intro l
  induction l with
  | nil => intro c _; rfl
  | cons r rest ih =>
    intro c h
    have hstep : replaceReservedStep c r = c := by
      unfold replaceReservedStep
      rw [h r (List.mem_cons_self _ _)]
    rw [List.foldl_cons, hstep]
    exact ih c (fun q hq => h q (List.mem_cons_of_mem _ hq))

theorem replaceReserved_id {V : Type} (c : Ctx V)
    (h : ∀ k ∈ reservedKeys, findKey k c = none) :
    replaceReservedExtraKwargs c = c :=
  foldl_replaceStep_id reservedKeys c h

theorem currentSnapshot_updateEnterFold {V : Type} :
    ∀ (ds : List (Ctx V)) (s : ContextStack V),
      (∀ d ∈ ds, ∀ k ∈ reservedKeys, findKey k d = none) →
      currentSnapshot (ds.foldl updateEnter s) =
        ds.foldl merge (currentSnapshot s) := by
  intro ds
  induction ds with
  | nil => intro s _; rfl
  | cons d rest ih =>
    intro s h
    have hd : updateEnter s d = s.push d := by
      unfold updateEnter
      rw [replaceReserved_id d (h d (List.mem_cons_self _ _))]
    rw [List.foldl_cons, hd]
    rw [ih _ (fun q hq => h q (List.mem_cons_of_mem _ hq))]
    rw [currentSnapshot_push]
    rw [List.foldl_cons]

theorem attrs_ne_updateEnterFold {V : Type} :
    ∀ (ds : List (Ctx V)) (s : ContextStack V), s.attrs ≠ [] →
      (ds.foldl updateEnter s).attrs ≠ [] := by
  intro ds
  induction ds with
  | nil => intro s h; exact h
  | cons d rest ih =>
    intro s _
    rw [List.foldl_cons]
    exact ih _ (push_attrs_ne s _)

theorem popStackN_succ_outer {V : Type} :
    ∀ (n : Nat) (s : ContextStack V),
      popStackN (n + 1) s = (popStackN n s).pop.stack := by
  intro n
  induction n with
  | zero => intro s; rfl
  | succ m ih =>
    intro s
    show popStackN (m + 1) s.pop.stack = _
    rw [ih s.pop.stack]
    rfl

/-- Exiting as many scopes as were entered restores the original stack. -/
theorem popN_updateEnterFold {V : Type} :
    ∀ (ds : List (Ctx V)) (s : ContextStack V), s.attrs ≠ [] →
      popStackN ds.length (ds.foldl updateEnter s) = s := by
  intro ds
  induction ds with
  | nil => intro s _; rfl
  | cons d rest ih =>
    intro s h
    have hne : (updateEnter s d).attrs ≠ [] := push_attrs_ne s _
    rw [List.foldl_cons, List.length_cons, popStackN_succ_outer,
      ih (updateEnter s d) hne]
    exact pop_push s _ h

theorem findKey_foldl_merge {V : Type} :
    ∀ (ds : List (Ctx V)) (c : Ctx V) (k : String),
      findKey k (ds.foldl merge c) =
        ds.foldl (fun acc d => (findKey k d).or acc) (findKey k c) := by
  intro ds
  induction ds with
  | nil => intro c k; rfl
  | cons d rest ih =>
    intro c k
    rw [List.foldl_cons, List.foldl_cons, ih, findKey_merge]

/-! Claim theorems. -/

/-- C1: the snapshot sequence of a ContextStack is never empty: it starts
with exactly one empty base snapshot, every public operation (push, pop,
dumps, reset, save, restore) preserves positive length, and hence every
state reachable from the initial one has length at least 1 — in
particular pop refuses to remove the last remaining snapshot. -/
theorem C1_stack_never_empty {V : Type} :
    (initStack V).attrs = [([] : Ctx V)] ∧
      (∀ (s : ContextStack V) (op : Op V),
        1 ≤ s.attrs.length → 1 ≤ (applyOp s op).attrs.length) ∧
      (∀ ops : List (Op V), 1 ≤ (applyOps (initStack V) ops).attrs.length) := by
  have hstep : ∀ (s : ContextStack V) (op : Op V),
      1 ≤ s.attrs.length → 1 ≤ (applyOp s op).attrs.length := by
    intro s op hs
    cases op with
    | push d =>
      show 1 ≤ (s.push d).attrs.length
      simp [ContextStack.push]
    | pop =>
      show 1 ≤ s.pop.stack.attrs.length
      unfold ContextStack.pop
      by_cases hle : s.attrs.length ≤ 1
      · rw [if_pos hle]; exact hs
      · rw [if_neg hle]
        show 1 ≤ s.attrs.dropLast.length
        rw [List.length_dropLast]
        omega
    | dumps kw => exact hs
    | reset => show 1 ≤ s.reset.attrs.length; exact Nat.le_refl 1
    | save => exact hs
    | restore saved =>
      show 1 ≤ (s.restore saved).attrs.length
      cases saved with
      | none => exact Nat.le_refl 1
      | some l =>
        cases l with
        | nil => exact Nat.le_refl 1
        | cons x xs => simp [ContextStack.restore]
  have hall : ∀ (ops : List (Op V)) (s : ContextStack V),
      1 ≤ s.attrs.length → 1 ≤ (applyOps s ops).attrs.length := by
    intro ops
    induction ops with
    | nil => intro s hs; exact hs
    | cons op rest ih => intro s hs; exact ih _ (hstep s op hs)
  exact ⟨rfl, hstep, fun ops => hall ops _ (Nat.le_refl 1)⟩

theorem C1_stack_never_empty_witness :
    1 ≤ (applyOp (initStack String) Op.pop).attrs.length ∧
      1 ≤ (applyOps (initStack String)
        [Op.push [("a", "b")], Op.pop, Op.pop, Op.reset]).attrs.length :=
  ⟨(C1_stack_never_empty (V := String)).2.1 _ _ (by decide),
    (C1_stack_never_empty (V := String)).2.2 _⟩

/-- C3: on every exit path of the `update` scope body — normal completion
or a raised exception, for any body that leaves the stack as it found it —
exactly one matching pop is performed, so the stack, its depth and the
merged view after exit equal those before entry, and the body's outcome
(including an exception) propagates outward after the pop. -/
theorem C3_update_exit_safety {V E A : Type} (s : ContextStack V)
    (kwargs : Ctx V)
    (body : Ctx V → ContextStack V → Except E A × ContextStack V)
    (hne : s.attrs ≠ [])
    (hbody : ∀ c t, (body c t).2 = t) :
    (update s kwargs body).2 = s ∧
      (update s kwargs body).2.attrs.length = s.attrs.length ∧
      (update s kwargs body).2.dumps [] = s.dumps [] ∧
      (update s kwargs body).1 =
        (body ((updateEnter s kwargs).dumps []) (updateEnter s kwargs)).1 := by
  have h2 : (update s kwargs body).2 = s := by
    show (body ((updateEnter s kwargs).dumps []) (updateEnter s kwargs)).2.pop.stack = s
    rw [hbody]
    exact pop_push s _ hne
  exact ⟨h2, by rw [h2], by rw [h2], rfl⟩

theorem C3_update_exit_safety_witness :
    (update (initStack String) [("k", "v")]
        (fun _ t => ((Except.error () : Except Unit Unit), t))).2 =
      initStack String ∧
      (update (initStack String) [("k", "v")]
        (fun _ t => ((Except.error () : Except Unit Unit), t))).1 =
        Except.error () :=
  ⟨(C3_update_exit_safety (initStack String) [("k", "v")] _
      (by decide) (fun _ _ => rfl)).1, rfl⟩

/-- C4: pop at depth 1 leaves the depth at 1, returns the base snapshot
(no exception: the returned snapshot exists) and warns; pop at depth > 1
decreases the depth by exactly 1 and returns the removed topmost
snapshot without warning. -/
theorem C4_pop_floor {V : Type} (s : ContextStack V) :
    (s.attrs.length = 1 →
      s.pop.stack = s ∧ s.pop.ret = s.attrs.head? ∧ s.pop.ret.isSome = true ∧
        s.pop.warned = true ∧ s.pop.stack.attrs.length = 1) ∧
    (2 ≤ s.attrs.length →
      s.pop.stack.attrs = s.attrs.dropLast ∧
        s.pop.stack.attrs.length = s.attrs.length - 1 ∧
        s.pop.ret = s.attrs.getLast? ∧ s.pop.warned = false) := by
  constructor
  · intro h
    have hsome : s.attrs.head?.isSome = true := by
      cases hl : s.attrs with
      | nil => rw [hl] at h; simp at h
      | cons x xs => rfl
    have hle : s.attrs.length ≤ 1 := le_of_eq h
    unfold ContextStack.pop
    rw [if_pos hle]
    exact ⟨rfl, rfl, hsome, rfl, h⟩
  · intro h
    have hle : ¬ s.attrs.length ≤ 1 := by omega
    unfold ContextStack.pop
    rw [if_neg hle]
    exact ⟨rfl, List.length_dropLast _, rfl, rfl⟩

theorem C4_pop_floor_witness :
    (initStack String).pop.stack = initStack String ∧
      (initStack String).pop.warned = true ∧
      (initStack String).pop.ret = some [] ∧
      ((initStack String).push [("a", "b")]).pop.stack.attrs.length = 1 ∧
      ((initStack String).push [("a", "b")]).pop.warned = false ∧
      ((initStack String).push [("a", "b")]).pop.ret = some [("a", "b")] := by
  have h1 := (C4_pop_floor (initStack String)).1 rfl
  have h2 := (C4_pop_floor ((initStack String).push [("a", "b")])).2 (by decide)
  refine ⟨h1.1, h1.2.2.2.1, ?_, ?_, h2.2.2.2, ?_⟩
  · rw [h1.2.1]; rfl
  · rw [h2.2.1]; rfl
  · rw [h2.2.2.1]; decide

/-- C5: restoring a saved state recovers exactly the saved stack (hence
merged view and depth), no matter what mutations — an arbitrary stack
`t`, in particular any `applyOps s ops` — happened to the live stack
after the save; restoring an absent (`none`) or empty saved state is
equivalent to reset, yielding depth 1 and an empty merged view. -/
theorem C5_save_restore {V : Type} (s t : ContextStack V) (ops : List (Op V))
    (h : s.attrs ≠ []) :
    t.restore (some s.save) = s ∧
      (applyOps s ops).restore (some s.save) = s ∧
      s.restore (some s.save) = s ∧
      t.restore none = t.reset ∧
      t.restore (some []) = t.reset ∧
      t.reset.attrs.length = 1 ∧ t.reset.dumps [] = [] := by
  have key : ∀ u : ContextStack V, u.restore (some s.save) = s := by
    intro u
    obtain ⟨l⟩ := s
    have hl : l.isEmpty = false := by
      cases l
      · exact absurd rfl h
      · rfl
    simp [ContextStack.restore, ContextStack.save, hl]
  exact ⟨key t, key _, key s, rfl, rfl, rfl, rfl⟩

theorem C5_save_restore_witness :
    (initStack String).restore
        (some ((initStack String).push [("a", "1")]).save) =
      (initStack String).push [("a", "1")] ∧
      (applyOps ((initStack String).push [("a", "1")])
          [Op.pop, Op.reset]).restore
          (some ((initStack String).push [("a", "1")]).save) =
        (initStack String).push [("a", "1")] ∧
      (initStack String).restore none = (initStack String).reset := by
  have h := C5_save_restore ((initStack String).push [("a", "1")])
    (initStack String) [Op.pop, Op.reset] (by decide)
  exact ⟨h.1, h.2.1, h.2.2.2.1⟩

/-- C6: push appends exactly one new snapshot, equal to the right-biased
union of the current snapshot with the deltas (deltas win on collision,
other keys carried over), increases the depth by exactly 1, and leaves
every pre-existing snapshot unchanged. -/
theorem C6_push_postcondition {V : Type} (s : ContextStack V) (d : Ctx V)
    (_h : s.attrs ≠ []) :
    (s.push d).attrs = s.attrs ++ [merge (currentSnapshot s) d] ∧
      (s.push d).attrs.length = s.attrs.length + 1 ∧
      (s.push d).attrs.dropLast = s.attrs ∧
      currentSnapshot (s.push d) = merge (currentSnapshot s) d ∧
      (∀ k, findKey k (currentSnapshot (s.push d)) =
        (findKey k d).or (findKey k (currentSnapshot s))) := by
  refine ⟨rfl, by simp [ContextStack.push], ?_, currentSnapshot_push s d, ?_⟩
  · show (s.attrs ++ [_]).dropLast = s.attrs
    exact List.dropLast_concat
  · intro k
    rw [currentSnapshot_push, findKey_merge]

theorem C6_push_postcondition_witness :
    ((initStack String).push [("a", "1")]).attrs =
      (initStack String).attrs ++
        [merge (currentSnapshot (initStack String)) [("a", "1")]] ∧
      ((initStack String).push [("a", "1")]).attrs.length = 2 ∧
      currentSnapshot ((initStack String).push [("a", "1")]) =
        [("a", "1")] := by
  have h := C6_push_postcondition (initStack String) [("a", "1")] (by decide)
  refine ⟨h.1, ?_, by decide⟩
  rw [h.2.1]; rfl

/-- C7: dumps returns the right-biased union of the current snapshot with
the overrides (overrides win on key collision); extensionally, lookup in
the result prefers the overrides and falls back to the current snapshot.
The stack itself is not an output of the operation. -/
theorem C7_dumps_postcondition {V : Type} (s : ContextStack V) (ov : Ctx V)
    (_h : s.attrs ≠ []) :
    s.dumps ov = merge (currentSnapshot s) ov ∧
      (∀ k, findKey k (s.dumps ov) =
        (findKey k ov).or (findKey k (currentSnapshot s))) := by
  have h1 : s.dumps ov = merge (currentSnapshot s) ov := by
    unfold ContextStack.dumps
    rw [merge_nil_left]
    rfl
  exact ⟨h1, fun k => by rw [h1, findKey_merge]⟩

theorem C7_dumps_postcondition_witness :
    ((initStack String).push [("session", "abc")]).dumps [("token", "xyz")] =
      [("session", "abc"), ("token", "xyz")] ∧
      (∀ k, findKey k
          (((initStack String).push [("session", "abc")]).dumps
            [("token", "xyz")]) =
        (findKey k [("token", "xyz")]).or
          (findKey k (currentSnapshot
            ((initStack String).push [("session", "abc")])))) :=
  ⟨by decide,
    (C7_dumps_postcondition ((initStack String).push [("session", "abc")])
      [("token", "xyz")] (by decide)).2⟩

/-- C9: reset leaves the sequence containing exactly one snapshot, the
empty base snapshot, so the depth is 1 and dumps with no overrides is the
empty mapping. -/
theorem C9_reset_postcondition {V : Type} (s : ContextStack V) :
    s.reset.attrs = [([] : Ctx V)] ∧ s.reset.attrs.length = 1 ∧
      s.reset.dumps [] = [] :=
  ⟨rfl, rfl, rfl⟩

/-- C2: balanced nesting — entering nested `update` scopes with deltas
`d1 … dn` (none containing reserved keys) from a state whose merged view
is empty makes the merged view inside the innermost scope the
right-biased union of `d1 … dn` in nesting order (later/inner keys win on
collision, stated both as the fold of `merge` and extensionally on
lookups); after all `n` scopes have exited, the stack — hence the merged
view — equals the one observed before the first entry. -/
theorem C2_balanced_nesting {V : Type} (s : ContextStack V)
    (ds : List (Ctx V))
    (hne : s.attrs ≠ [])
    (hbase : currentSnapshot s = [])
    (hres : ∀ d ∈ ds, ∀ k ∈ reservedKeys, findKey k d = none) :
    (ds.foldl updateEnter s).dumps [] = ds.foldl merge [] ∧
      (∀ k, findKey k ((ds.foldl updateEnter s).dumps []) =
        ds.foldl (fun acc d => (findKey k d).or acc) none) ∧
      popStackN ds.length (ds.foldl updateEnter s) = s ∧
      (popStackN ds.length (ds.foldl updateEnter s)).dumps [] = s.dumps [] := by
  have h1 : (ds.foldl updateEnter s).dumps [] = ds.foldl merge [] := by
    rw [dumps_nil, currentSnapshot_updateEnterFold ds s hres, hbase]
  refine ⟨h1, ?_, popN_updateEnterFold ds s hne, ?_⟩
  · intro k
    rw [h1, findKey_foldl_merge]
    rfl
  · rw [popN_updateEnterFold ds s hne]

theorem C2_balanced_nesting_witness :
    (([[("a", "1")], [("a", "2"), ("b", "3")]] : List (Ctx String)).foldl
        updateEnter (initStack String)).dumps [] =
      [("a", "2"), ("b", "3")] ∧
      popStackN 2
        (([[("a", "1")], [("a", "2"), ("b", "3")]] : List (Ctx String)).foldl
          updateEnter (initStack String)) = initStack String := by
  have h := C2_balanced_nesting (initStack String)
    [[("a", "1")], [("a", "2"), ("b", "3")]] (by decide) (by decide) (by decide)
  exact ⟨by rw [h.1]; decide, h.2.2.1⟩

/-- C8: every caller-supplied key exactly matching a reserved name is
renamed to `ctx_<name>` with its value preserved, and the reserved key
itself does not survive the remapping step used by the scope/read
operations. -/
theorem C8_reserved_key_remapping {V : Type} (c : Ctx V) (k : String)
    (v : V) (hk : k ∈ reservedKeys) (hv : findKey k c = some v) :
    findKey k (replaceReservedExtraKwargs c) = none ∧
      findKey ("ctx_" ++ k) (replaceReservedExtraKwargs c) = some v :=
  findKey_foldl_replace_mem reservedKeys c k v hk (by decide) (by decide)
    (by decide) hv

theorem C8_reserved_key_remapping_witness :
    (findKey "message" (replaceReservedExtraKwargs
        ([("message", "x")] : Ctx String)) = none ∧
      findKey ("ctx_" ++ "message") (replaceReservedExtraKwargs
        ([("message", "x")] : Ctx String)) = some "x") ∧
      currentSnapshot (updateEnter (initStack String) [("message", "x")]) =
        [("ctx_message", "x")] :=
  ⟨C8_reserved_key_remapping [("message", "x")] "message" "x" (by decide)
      (by decide),
    by decide⟩

/-- C10 (implicit): when the caller supplies both a reserved key `k` and
its prefixed form `ctx_<k>`, the remapping overwrites the `ctx_<k>` entry
with the value supplied under `k`, so the value originally supplied under
`ctx_<k>` is silently lost from the result. -/
theorem C10_prefixed_key_overwritten {V : Type} (c : Ctx V) (k : String)
    (v w : V) (hk : k ∈ reservedKeys) (hv : findKey k c = some v)
    (_hw : findKey ("ctx_" ++ k) c = some w) :
    findKey ("ctx_" ++ k) (replaceReservedExtraKwargs c) = some v ∧
      (v ≠ w →
        findKey ("ctx_" ++ k) (replaceReservedExtraKwargs c) ≠ some w) := by
  have h := findKey_foldl_replace_mem reservedKeys c k v hk (by decide)
    (by decide) (by decide) hv
  have h2 : findKey ("ctx_" ++ k) (replaceReservedExtraKwargs c) = some v := h.2
  refine ⟨h2, fun hvw hcon => hvw ?_⟩
  rw [h2] at hcon
  exact Option.some.inj hcon

theorem C10_prefixed_key_overwritten_witness :
    findKey ("ctx_" ++ "message") (replaceReservedExtraKwargs
        ([("ctx_message", "old"), ("message", "x")] : Ctx String)) =
      some "x" ∧
      replaceReservedExtraKwargs
        ([("ctx_message", "old"), ("message", "x")] : Ctx String) =
        [("ctx_message", "x")] :=
  ⟨(C10_prefixed_key_overwritten [("ctx_message", "old"), ("message", "x")]
      "message" "x" "old" (by decide) (by decide) (by decide)).1,
    by decide⟩

end CtxStack
